import Mathlib

/-!
Verification of the agent-program core of the aima-rust repository
(src/agents.rs): the table-driven agent (module `table`) and the simple
reflex agent (module `reflex`), together with the weather/window
environment types (module `envs::weather`).

Rust HashMap values are embedded as association lists with key lookup by
decidable equality; `Option::unwrap` panics are embedded as `Option`
results, `none` standing for the panic on a missing key. Rust `FnOnce`
closures are embedded by an explicit affine-usage state machine: a stored
closure is available at most once and invoking it consumes the instance.
-/

namespace Agents

/-- Embeds `type Table<Percept, Action> = HashMap<Vec<Percept>, Action>`
from `agents::table`: a finite map from percept sequences to actions,
represented as an association list. -/
abbrev Table (Percept Action : Type) : Type := List (List Percept × Action)

/-- Embeds `HashMap::get` on a `Table`: the action stored under exactly the
key `key`, or `none` when no entry has that key. -/
def Table.get {Percept Action : Type} [DecidableEq Percept]
    (t : Table Percept Action) (key : List Percept) : Option Action :=
  (List.find? (fun kv => decide (kv.1 = key)) t).map Prod.snd

/-- Embeds `struct TableDrivenAgent<Percept, Action>` from `agents::table`:
the owned percept history and the lookup table. -/
structure TableDrivenAgent (Percept Action : Type) where
  percepts : List Percept
  table : Table Percept Action

/-- Embeds `TableDrivenAgent::new`: takes the table and initializes an
empty percept history (`Vec::new()`). -/
def TableDrivenAgent.new {Percept Action : Type}
    (table : Table Percept Action) : TableDrivenAgent Percept Action :=
  ⟨[], table⟩

/-- Embeds `TableDrivenAgent::run`: pushes the percept onto the history,
then looks up the complete updated history in the table and unwraps.
The returned pair is (result of the lookup, updated agent); `none` in the
first component embeds the `unwrap` panic on a missing key. -/
def TableDrivenAgent.run {Percept Action : Type} [DecidableEq Percept]
    (a : TableDrivenAgent Percept Action) (p : Percept) :
    Option Action × TableDrivenAgent Percept Action :=
  (Table.get a.table (a.percepts ++ [p]), ⟨a.percepts ++ [p], a.table⟩)

/-- Embeds `enum Weather` from `agents::envs::weather`. -/
inductive Weather where
  | Sunny
  | Rainy
deriving DecidableEq

/-- Embeds `enum Window` from `agents::envs::weather`. -/
inductive Window where
  | Open
  | Close
deriving DecidableEq

/-- The two-entry table of the module documentation and of the spec:
`[Sunny] -> Open` and `[Rainy] -> Close`. -/
def weatherTable : Table Weather Window :=
  [([Weather.Sunny], Window.Open), ([Weather.Rainy], Window.Close)]

/-- Embeds `reflex::identity`. -/
def identity {T : Type} (t : T) : T :=
  t

/-- Embeds `struct SimpleReflexAgent` from `agents::reflex`: it stores the
two functions and nothing else (the `PhantomData` field carries no data). -/
structure SimpleReflexAgent (Percept State Action : Type) where
  interpret_input : Percept → State
  rule_match : State → Action

/-- Embeds `SimpleReflexAgent::new`: stores the two supplied functions. -/
def SimpleReflexAgent.new {Percept State Action : Type}
    (interpret_input : Percept → State) (rule_match : State → Action) :
    SimpleReflexAgent Percept State Action :=
  ⟨interpret_input, rule_match⟩

/-- Embeds the `FnOnce` usage discipline of the stored closures of
`SimpleReflexAgent`: a `fresh` instance still owns its closures, a
`consumed` instance has given them up. Rust imposes this affinely in the
type system; here it is tracked explicitly in the state. -/
inductive ReflexInstance (Percept State Action : Type) where
  | fresh (agent : SimpleReflexAgent Percept State Action)
  | consumed

/-- Invoking the stored `FnOnce` closures on a percept: possible exactly
once, after which the instance is consumed and every further attempt
fails (`none` embeds the move error Rust rejects at compile time). -/
def ReflexInstance.invokeOnce {Percept State Action : Type} :
    ReflexInstance Percept State Action → Percept →
    Option Action × ReflexInstance Percept State Action
  | .fresh agent, p => (some (agent.rule_match (agent.interpret_input p)), .consumed)
  | .consumed, _ => (none, .consumed)

/-- All extensions of the sequences in `ss` by one leading element drawn
from `alphabet` (used to enumerate percept sequences for the growth law of
the table module documentation). -/
def consAll {Percept : Type} : List Percept → List (List Percept) → List (List Percept)
  | [], _ => []
  | x :: xs, ss => ss.map (fun s => x :: s) ++ consAll xs ss

/-- All sequences of length `n` over `alphabet`. -/
def allSeqs {Percept : Type} (alphabet : List Percept) : Nat → List (List Percept)
  | 0 => [[]]
  | n + 1 => consAll alphabet (allSeqs alphabet n)

/-- The key set of a table covering every percept sequence of length
`1..=T` over `alphabet`, as in the module documentation of
`agents::table`. -/
def tableKeys {Percept : Type} (alphabet : List Percept) : Nat → List (List Percept)
  | 0 => []
  | T + 1 => tableKeys alphabet T ++ allSeqs alphabet (T + 1)

theorem length_consAll {Percept : Type} (al : List Percept) (ss : List (List Percept)) :
    (consAll al ss).length = al.length * ss.length := by
  induction al with
  | nil => simp [consAll]
  | cons x xs ih => simp [consAll, ih, Nat.succ_mul, Nat.add_comm]

theorem mem_consAll {Percept : Type} {al : List Percept} {ss : List (List Percept)}
    {s : List Percept} :
    s ∈ consAll al ss ↔ ∃ x t, x ∈ al ∧ t ∈ ss ∧ s = x :: t := by
  induction al with
  | nil => simp [consAll]
  | cons y ys ih =>
    simp only [consAll, List.mem_append, List.mem_map, ih, List.mem_cons]
    constructor
    · rintro (⟨t, ht, rfl⟩ | ⟨x, t, hx, ht, rfl⟩)
      · exact ⟨y, t, Or.inl rfl, ht, rfl⟩
      · exact ⟨x, t, Or.inr hx, ht, rfl⟩
    · rintro ⟨x, t, hx | hx, ht, rfl⟩
      · exact Or.inl ⟨t, ht, by rw [hx]⟩
      · exact Or.inr ⟨x, t, hx, ht, rfl⟩

theorem nodup_consAll {Percept : Type} {al : List Percept} {ss : List (List Percept)}
    (hal : al.Nodup) (hss : ss.Nodup) : (consAll al ss).Nodup := by
  induction al with
  | nil => simp [consAll]
  | cons y ys ih =>
    rw [List.nodup_cons] at hal
    refine List.Nodup.append ?_ (ih hal.2) ?_
    · exact hss.map fun a b h => List.tail_eq_of_cons_eq h
    · intro s hs hs2
      rcases List.mem_map.1 hs with ⟨t, _, rfl⟩
      rcases mem_consAll.1 hs2 with ⟨x, u, hx, _, heq⟩
      exact hal.1 (by rw [List.head_eq_of_cons_eq heq]; exact hx)

theorem length_allSeqs {Percept : Type} (al : List Percept) (n : Nat) :
    (allSeqs al n).length = al.length ^ n := by
  induction n with
  | zero => rfl
  | succ n ih => rw [allSeqs, length_consAll, ih, pow_succ, Nat.mul_comm]

theorem mem_allSeqs {Percept : Type} {al : List Percept} {n : Nat} {s : List Percept} :
    s ∈ allSeqs al n ↔ s.length = n ∧ ∀ x ∈ s, x ∈ al := by
  induction n generalizing s with
  | zero =>
    simp only [allSeqs, List.mem_singleton]
    constructor
    · rintro rfl; simp
    · rintro ⟨h, -⟩; exact List.length_eq_zero.1 h
  | succ n ih =>
    rw [allSeqs, mem_consAll]
    constructor
    · rintro ⟨x, t, hx, ht, rfl⟩
      rcases ih.1 ht with ⟨hlen, hmem⟩
      refine ⟨by simp [hlen], ?_⟩
      intro y hy
      rcases List.mem_cons.1 hy with rfl | hy
      · exact hx
      · exact hmem y hy
    · rintro ⟨hlen, hmem⟩
      cases s with
      | nil => simp at hlen
      | cons x t =>
        refine ⟨x, t, hmem x (List.mem_cons_self x t), ih.2 ⟨?_, ?_⟩, rfl⟩
        · simpa using hlen
        · intro y hy; exact hmem y (List.mem_cons_of_mem x hy)

theorem nodup_allSeqs {Percept : Type} {al : List Percept} (hal : al.Nodup) (n : Nat) :
    (allSeqs al n).Nodup := by
  induction n with
  | zero => simp [allSeqs]
  | succ n ih => exact nodup_consAll hal ih

theorem length_tableKeys {Percept : Type} (al : List Percept) (T : Nat) :
    (tableKeys al T).length = ∑ t ∈ Finset.Icc 1 T, al.length ^ t := by
  induction T with
  | zero => rw [tableKeys]; rw [Finset.Icc_eq_empty (by omega), Finset.sum_empty]; rfl
  | succ T ih =>
    rw [tableKeys, List.length_append, ih, length_allSeqs,
      Finset.sum_Icc_succ_top (by omega)]

theorem mem_tableKeys {Percept : Type} {al : List Percept} {T : Nat} {s : List Percept} :
    s ∈ tableKeys al T ↔ 1 ≤ s.length ∧ s.length ≤ T ∧ ∀ x ∈ s, x ∈ al := by
  induction T with
  | zero =>
    simp only [tableKeys, List.not_mem_nil, false_iff]
    rintro ⟨h1, h2, -⟩
    omega
  | succ T ih =>
    rw [tableKeys, List.mem_append, ih, mem_allSeqs]
    constructor
    · rintro (⟨h1, h2, h3⟩ | ⟨h1, h2⟩)
      · exact ⟨h1, by omega, h3⟩
      · exact ⟨by omega, by omega, h2⟩
    · rintro ⟨h1, h2, h3⟩
      rcases Nat.lt_or_ge s.length (T + 1) with h | h
      · exact Or.inl ⟨h1, by omega, h3⟩
      · exact Or.inr ⟨by omega, h3⟩

theorem nodup_tableKeys {Percept : Type} {al : List Percept} (hal : al.Nodup) (T : Nat) :
    (tableKeys al T).Nodup := by
  induction T with
  | zero => simp [tableKeys]
  | succ T ih =>
    rw [tableKeys]
    refine List.Nodup.append ih (nodup_allSeqs hal (T + 1)) ?_
    intro s hs hs2
    rcases mem_tableKeys.1 hs with ⟨-, h2, -⟩
    rcases mem_allSeqs.1 hs2 with ⟨hlen, -⟩
    omega

/-- A concrete `Table` covering every weather sequence of length `1..=3`:
close the window when the latest percept is rainy, otherwise open it. -/
def fullWeatherTable : Table Weather Window :=
  (tableKeys [Weather.Sunny, Weather.Rainy] 3).map
    (fun ks => (ks, if ks.getLast? = some Weather.Rainy then Window.Close else Window.Open))

/-- C7: any lookup `Table` whose keys are exactly the percept sequences of
length `1..=T` over an alphabet of `|P|` distinct percepts, each occurring
once, has entry count `Σ_(t in 1..=T) |P| ^ t`. -/
theorem lookupTable_growth_law {Percept Action : Type} (al : List Percept)
    (hal : al.Nodup) (T : Nat) (tbl : Table Percept Action)
    (hnd : (tbl.map Prod.fst).Nodup)
    (hmem : ∀ s, s ∈ tbl.map Prod.fst ↔
      1 ≤ s.length ∧ s.length ≤ T ∧ ∀ x ∈ s, x ∈ al) :
    tbl.length = ∑ t ∈ Finset.Icc 1 T, al.length ^ t := by
  have hperm : (tbl.map Prod.fst).Perm (tableKeys al T) :=
    (List.perm_ext_iff_of_nodup hnd (nodup_tableKeys hal T)).2
      fun s => (hmem s).trans mem_tableKeys.symm
  have hlen := hperm.length_eq
  rw [List.length_map, length_tableKeys] at hlen
  exact hlen

/-- Witness for C7: over the two weather percepts with lifetime `T = 3`,
a covering table has `2 + 4 + 8 = 14` entries. -/
theorem lookupTable_growth_law_witness :
    ([Weather.Sunny, Weather.Rainy] : List Weather).Nodup ∧
    fullWeatherTable.length = 14 :=
  ⟨by decide, by
    rw [lookupTable_growth_law [Weather.Sunny, Weather.Rainy] (by decide) 3
      fullWeatherTable (by decide)
      (fun s => by
        rw [show fullWeatherTable.map Prod.fst
            = tableKeys [Weather.Sunny, Weather.Rainy] 3 from by decide]
        exact mem_tableKeys)]
    decide⟩

/-- C1: `run` first appends the percept to the owned history, then performs
an exact-match lookup of the entire updated history (the result is the
table entry for exactly `percepts ++ [p]`); and the fresh agent over the
two-entry weather table answers `run Sunny` with `Open`. -/
theorem tableDrivenAgent_run_appends_then_looks_up
    {Percept Action : Type} [DecidableEq Percept]
    (a : TableDrivenAgent Percept Action) (p : Percept) :
    (a.run p).2.percepts = a.percepts ++ [p] ∧
    (a.run p).1 = Table.get a.table (a.percepts ++ [p]) ∧
    ((TableDrivenAgent.new weatherTable).run Weather.Sunny).1 = some Window.Open := by
  refine ⟨rfl, rfl, ?_⟩
  decide

/-- C2: whenever the updated full history has no table entry, `run` fails
observably (`none`, embedding the `unwrap` panic on the missing key); it
never produces a default action. -/
theorem tableDrivenAgent_run_not_found
    {Percept Action : Type} [DecidableEq Percept]
    (a : TableDrivenAgent Percept Action) (p : Percept)
    (h : Table.get a.table (a.percepts ++ [p]) = none) :
    (a.run p).1 = none := by
  simpa [TableDrivenAgent.run] using h

/-- Witness for C2: the weather agent that has already seen `Sunny`, fed
`Sunny` again, looks up `[Sunny, Sunny]`, which is absent, and fails. -/
theorem tableDrivenAgent_run_not_found_witness :
    Table.get weatherTable [Weather.Sunny, Weather.Sunny] = none ∧
    ((TableDrivenAgent.mk [Weather.Sunny] weatherTable).run Weather.Sunny).1 = none :=
  ⟨by decide,
    tableDrivenAgent_run_not_found
      (TableDrivenAgent.mk [Weather.Sunny] weatherTable) Weather.Sunny (by decide)⟩

/-- C4: over the two-entry weather table, `run Sunny` answers `Open`; the
subsequent `run Rainy` looks up the two-element history `[Sunny, Rainy]`
and fails, although `[Rainy]` alone is a key of the table. -/
theorem tableDrivenAgent_single_entry_no_subsequence_hit :
    (((TableDrivenAgent.new weatherTable).run Weather.Sunny).2.run Weather.Rainy).2.percepts
      = [Weather.Sunny, Weather.Rainy] ∧
    (((TableDrivenAgent.new weatherTable).run Weather.Sunny).2.run Weather.Rainy).1
      = Table.get weatherTable [Weather.Sunny, Weather.Rainy] ∧
    (((TableDrivenAgent.new weatherTable).run Weather.Sunny).2.run Weather.Rainy).1 = none ∧
    Table.get weatherTable [Weather.Rainy] = some Window.Close := by
  refine ⟨rfl, rfl, ?_, ?_⟩ <;> decide

/-- C5: the percept history is append-only: every `run` call, also one
whose lookup fails, leaves the history equal to the old history extended
by exactly the new percept at the end (so it grows by one and the old
history stays an unchanged prefix). -/
theorem tableDrivenAgent_history_append_only
    {Percept Action : Type} [DecidableEq Percept]
    (a : TableDrivenAgent Percept Action) (p : Percept) :
    (a.run p).2.percepts = a.percepts ++ [p] ∧
    (a.run p).2.percepts.length = a.percepts.length + 1 := by
  exact ⟨rfl, by simp [TableDrivenAgent.run]⟩

/-- C6: `run` never touches the table: the agent after any `run` call
carries exactly the table it carried before. -/
theorem tableDrivenAgent_table_unchanged
    {Percept Action : Type} [DecidableEq Percept]
    (a : TableDrivenAgent Percept Action) (p : Percept) :
    (a.run p).2.table = a.table :=
  rfl

/-- C9: when the table has an entry for the history extended by the
incoming percept, `run` cannot reach its failure (panic) branch: it
returns exactly that entry. -/
theorem tableDrivenAgent_run_total_on_covered_history
    {Percept Action : Type} [DecidableEq Percept]
    (a : TableDrivenAgent Percept Action) (p : Percept) (act : Action)
    (h : Table.get a.table (a.percepts ++ [p]) = some act) :
    (a.run p).1 = some act := by
  simpa [TableDrivenAgent.run] using h

/-- Witness for C9: the fresh weather agent fed `Sunny` has the covered
history `[Sunny]` and returns its entry `Open`. -/
theorem tableDrivenAgent_run_total_on_covered_history_witness :
    Table.get weatherTable ([] ++ [Weather.Sunny]) = some Window.Open ∧
    ((TableDrivenAgent.new weatherTable).run Weather.Sunny).1 = some Window.Open :=
  ⟨by decide,
    tableDrivenAgent_run_total_on_covered_history
      (TableDrivenAgent.new weatherTable) Weather.Sunny Window.Open (by decide)⟩

/-- C10: `reflex::identity` returns its argument unchanged. -/
theorem identity_returns_argument {T : Type} (t : T) : identity t = t :=
  rfl

/-- C8: `SimpleReflexAgent` offers only construction; under the `FnOnce`
bound each stored function is invocable at most once per instance: the
first invocation yields `rule_match (interpret_input p)` and consumes the
instance, and every later invocation fails, so repeated per-percept
invocation is not expressible. -/
theorem simpleReflexAgent_fnOnce_single_use
    {Percept State Action : Type}
    (i : Percept → State) (m : State → Action) (p q : Percept) :
    (ReflexInstance.invokeOnce (.fresh (SimpleReflexAgent.new i m)) p).1 = some (m (i p)) ∧
    (ReflexInstance.invokeOnce
      (ReflexInstance.invokeOnce (.fresh (SimpleReflexAgent.new i m)) p).2 q).1 = none :=
  ⟨rfl, rfl⟩

/-- C3 divergence: the claimed repeatable `run` does not exist on
`SimpleReflexAgent`; under the actual `FnOnce` discipline, invoking the
stored functions of the documentation example twice with the same percept
gives `some Open` the first time and a failure the second time, so
per-percept invocation is not identical across repeated calls. -/
theorem simpleReflexAgent_no_repeatable_run :
    (ReflexInstance.invokeOnce
      (.fresh (SimpleReflexAgent.new identity
        (fun w => match w with | Weather.Sunny => Window.Open | Weather.Rainy => Window.Close)))
      Weather.Sunny).1 = some Window.Open ∧
    (ReflexInstance.invokeOnce
      (ReflexInstance.invokeOnce
        (.fresh (SimpleReflexAgent.new identity
          (fun w => match w with | Weather.Sunny => Window.Open | Weather.Rainy => Window.Close)))
        Weather.Sunny).2 Weather.Sunny).1 = none ∧
    (some Window.Open ≠ (none : Option Window)) := by
  refine ⟨rfl, rfl, ?_⟩
  decide

end Agents
